import Mathlib

set_option maxHeartbeats 1000000

/-!
Verification of the IRRL reputation service core against its specification.

The TypeScript source is shallowly embedded: pure functions become Lean
functions, route handlers become explicit state transformers over a record
modelling the database, JavaScript numbers are modelled as exact rationals
(or reals where `Math.pow` takes a fractional exponent), and the SQL tables
are modelled as lists of rows kept in insertion order (a `SELECT` without
`ORDER BY` returns insertion order; `ORDER BY id` returns the id-sorted
rows).
-/

/-- Modelled from the spec: `sha256(bytes) → hexString` (component C1/C2 of
the spec).  The hash itself is the Node `crypto` library, which is not part
of this repository; it is modelled as an injective tagging function.  Every
property proved below uses only that `sha256` is a deterministic function of
its input (plus, for concrete counterexamples, that it does not collide on
the concrete distinct inputs involved, which the real SHA-256 also does
not). -/
def sha256 (s : String) : String := "h#" ++ s

/-- JSON values, the implicit data model of `Record<string, unknown>` in the
source.  Numbers are restricted to integers, which covers every value the
analysed code paths serialize (scores, timestamps, counts); objects are
field lists in insertion order, mirroring JavaScript property order. -/
inductive JVal where
  | jnull : JVal
  | jbool : Bool → JVal
  | jnum : Int → JVal
  | jstr : String → JVal
  | jarr : List JVal → JVal
  | jobj : List (String × JVal) → JVal

/-- String quoting used by the serializer.  JSON escape sequences are
elided: all concrete strings in this development are escape-free, and no
claim depends on the escaping rules. -/
def quoteStr (s : String) : String := "\"" ++ s ++ "\""

/-- First-match association lookup, as JavaScript property access on the
serialized member list. -/
def lookupStr (k : String) : List (String × String) → Option String
  | [] => none
  | (a, b) :: r => if a = k then some b else lookupStr k r

mutual

/-- JSON.stringify with an optional replacer array `pl` (ECMAScript
`SerializeJSONProperty`): with `none`, objects serialize all fields in
insertion order; with `some keys`, every object at every nesting level
serializes exactly the properties named in `keys`, in the order of `keys`
(properties absent from `keys` are dropped).  Array elements are always
serialized, in order. -/
def serOne (pl : Option (List String)) : JVal → String
  | .jnull => "null"
  | .jbool b => if b then "true" else "false"
  | .jnum n => toString n
  | .jstr s => quoteStr s
  | .jarr es => "[" ++ String.intercalate "," (serMany pl es) ++ "]"
  | .jobj fs =>
      let pairs := serFields pl fs
      let members := match pl with
        | none => pairs.map (fun kv => quoteStr kv.1 ++ ":" ++ kv.2)
        | some keys =>
            keys.filterMap (fun k => (lookupStr k pairs).map (fun sv => quoteStr k ++ ":" ++ sv))
      "\x7b" ++ String.intercalate "," members ++ "\x7d"

/-- Serialization of a list of array elements. -/
def serMany (pl : Option (List String)) : List JVal → List String
  | [] => []
  | v :: vs => serOne pl v :: serMany pl vs

/-- Serialization of the values of an object field list, keeping the keys. -/
def serFields (pl : Option (List String)) : List (String × JVal) → List (String × String)
  | [] => []
  | (k, v) :: fs => (k, serOne pl v) :: serFields pl fs

end

/-- Lexicographic comparison of character lists by code point, the order
JavaScript's default string comparator implements (JavaScript compares
UTF-16 code units, which agrees with code points on all strings appearing
in this development). -/
def charsLe : List Char → List Char → Bool
  | [], _ => true
  | _ :: _, [] => false
  | c :: cs, d :: ds =>
      if c.toNat < d.toNat then true
      else if d.toNat < c.toNat then false
      else charsLe cs ds

/-- String comparison used to model `Array.prototype.sort()`. -/
def strLe (a b : String) : Bool := charsLe a.data b.data

theorem charsLe_total : ∀ a b : List Char, charsLe a b = true ∨ charsLe b a = true
  | [], _ => Or.inl rfl
  | _ :: _, [] => Or.inr rfl
  | c :: cs, d :: ds => by
      simp only [charsLe]
      rcases Nat.lt_trichotomy c.toNat d.toNat with h | h | h
      · simp [h]
      · simpa [h, Nat.lt_irrefl] using charsLe_total cs ds
      · simp [h, Nat.lt_asymm h]

theorem char_toNat_inj {c d : Char} (h : c.toNat = d.toNat) : c = d :=
  Char.ext (UInt32.ext h)

theorem charsLe_antisymm : ∀ {a b : List Char},
    charsLe a b = true → charsLe b a = true → a = b
  | [], [], _, _ => rfl
  | [], _ :: _, _, h₂ => by simp [charsLe] at h₂
  | _ :: _, [], h₁, _ => by simp [charsLe] at h₁
  | c :: cs, d :: ds, h₁, h₂ => by
      simp only [charsLe] at h₁ h₂
      rcases Nat.lt_trichotomy c.toNat d.toNat with h | h | h
      · rw [if_neg (Nat.lt_asymm h), if_pos h] at h₂
        exact absurd h₂ (by simp)
      · rw [if_neg (by omega), if_neg (by omega)] at h₁ h₂
        rw [char_toNat_inj h, charsLe_antisymm h₁ h₂]
      · rw [if_neg (Nat.lt_asymm h), if_pos h] at h₁
        exact absurd h₁ (by simp)

theorem charsLe_trans : ∀ {a b c : List Char},
    charsLe a b = true → charsLe b c = true → charsLe a c = true
  | [], _, _, _, _ => rfl
  | _ :: _, [], _, h₁, _ => by simp [charsLe] at h₁
  | _ :: _, _ :: _, [], _, h₂ => by simp [charsLe] at h₂
  | a :: as, b :: bs, c :: cs, h₁, h₂ => by
      simp only [charsLe] at h₁ h₂ ⊢
      by_cases hab : a.toNat < b.toNat <;> by_cases hbc : b.toNat < c.toNat
      · rw [if_pos (by omega)]
      · by_cases hcb : c.toNat < b.toNat
        · rw [if_neg hbc, if_pos hcb] at h₂
          exact absurd h₂ (by simp)
        · rw [if_pos (by omega)]
      · by_cases hba : b.toNat < a.toNat
        · rw [if_neg hab, if_pos hba] at h₁
          exact absurd h₁ (by simp)
        · rw [if_pos (by omega)]
      · by_cases hba : b.toNat < a.toNat
        · rw [if_neg hab, if_pos hba] at h₁
          exact absurd h₁ (by simp)
        · by_cases hcb : c.toNat < b.toNat
          · rw [if_neg hbc, if_pos hcb] at h₂
            exact absurd h₂ (by simp)
          · rw [if_neg hab, if_neg hba] at h₁
            rw [if_neg hbc, if_neg hcb] at h₂
            rw [if_neg (by omega), if_neg (by omega)]
            exact charsLe_trans h₁ h₂

instance : IsTotal String (fun a b => strLe a b = true) :=
  ⟨fun a b => charsLe_total a.data b.data⟩

instance : IsTrans String (fun a b => strLe a b = true) :=
  ⟨fun _ _ _ h₁ h₂ => charsLe_trans h₁ h₂⟩

instance : IsAntisymm String (fun a b => strLe a b = true) :=
  ⟨fun a b h₁ h₂ => by
    cases a
    cases b
    exact congrArg String.mk (charsLe_antisymm h₁ h₂)⟩

/-- Model of `Array.prototype.sort()` on string arrays: stable sorting by
the default lexicographic comparator. -/
def sortStrings (l : List String) : List String :=
  l.insertionSort (fun a b => strLe a b = true)

/-- Embeds `JSON.stringify(obj, Object.keys(obj).sort())` from
`contentId` / `signObject` in `src/apps/api/src/crypto/index.ts`: the
replacer array is the sorted list of top-level keys. -/
def canonicalFields (fs : List (String × JVal)) : String :=
  serOne (some (sortStrings (fs.map Prod.fst))) (JVal.jobj fs)

/-- Embeds `contentId` (crypto/index.ts lines 7-10). -/
def contentId (fs : List (String × JVal)) : String :=
  "cid_" ++ sha256 (canonicalFields fs)

mutual

/-- Well-formedness of a JSON value as produced by JavaScript objects:
object key lists are duplicate-free, recursively. -/
def WFj : JVal → Prop
  | .jnull => True
  | .jbool _ => True
  | .jnum _ => True
  | .jstr _ => True
  | .jarr es => WFmany es
  | .jobj fs => (fs.map Prod.fst).Nodup ∧ WFfields fs

/-- Well-formedness of a list of array elements. -/
def WFmany : List JVal → Prop
  | [] => True
  | v :: vs => WFj v ∧ WFmany vs

/-- Well-formedness of an object field list. -/
def WFfields : List (String × JVal) → Prop
  | [] => True
  | (_, v) :: fs => WFj v ∧ WFfields fs

end

mutual

/-- Key reordering at any nesting level: two values are related when they
agree up to permuting the fields of objects (at any depth), keeping array
order and all atoms. -/
def ReorderJ : JVal → JVal → Prop
  | .jnull, .jnull => True
  | .jbool b, .jbool b₂ => b = b₂
  | .jnum n, .jnum n₂ => n = n₂
  | .jstr s, .jstr s₂ => s = s₂
  | .jarr es, .jarr es₂ => ReorderMany es es₂
  | .jobj fs, .jobj fs₂ => ∃ mid, ReorderFields fs mid ∧ mid.Perm fs₂
  | _, _ => False

/-- Pointwise reordering of array elements (order kept). -/
def ReorderMany : List JVal → List JVal → Prop
  | [], [] => True
  | v :: vs, v₂ :: vs₂ => ReorderJ v v₂ ∧ ReorderMany vs vs₂
  | _, _ => False

/-- Pointwise reordering of the values of a field list, keys and their
order kept. -/
def ReorderFields : List (String × JVal) → List (String × JVal) → Prop
  | [], [] => True
  | (k, v) :: fs, (k₂, v₂) :: fs₂ => k = k₂ ∧ ReorderJ v v₂ ∧ ReorderFields fs fs₂
  | _, _ => False

end

/-- Unfolding lemma: `serFields` is a map over the field list. -/
theorem serFields_eq_map (pl : Option (List String)) :
    ∀ fs : List (String × JVal), serFields pl fs = fs.map (fun kv => (kv.1, serOne pl kv.2))
  | [] => rfl
  | (k, v) :: fs => by simp [serFields, serFields_eq_map pl fs]

/-- Reordering the values of a field list keeps the key list. -/
theorem reorderFields_keys :
    ∀ {fs mid : List (String × JVal)}, ReorderFields fs mid →
      fs.map Prod.fst = mid.map Prod.fst
  | [], [], _ => rfl
  | (k, v) :: fs, (k₂, v₂) :: mid, h => by
      obtain ⟨hk, _, hrest⟩ := h
      simp [hk, reorderFields_keys hrest]

theorem lookupStr_perm {l l₂ : List (String × String)} (h : l.Perm l₂)
    (hnd : (l.map Prod.fst).Nodup) (k : String) : lookupStr k l = lookupStr k l₂ := by
  induction h with
  | nil => rfl
  | cons a _ ih =>
      obtain ⟨ka, va⟩ := a
      simp only [lookupStr]
      rcases Decidable.em (ka = k) with hk | hk
      · simp [hk]
      · simp only [hk, if_false]
        exact ih (by simpa using hnd.of_cons)
  | swap a b l =>
      obtain ⟨ka, va⟩ := a
      obtain ⟨kb, vb⟩ := b
      simp only [lookupStr]
      rcases Decidable.em (ka = k) with hka | hka
      · rcases Decidable.em (kb = k) with hkb | hkb
        · exfalso
          simp only [List.map_cons, List.nodup_cons, List.mem_cons] at hnd
          exact hnd.1 (Or.inl (by rw [hka, hkb]))
        · simp [hka, hkb]
      · simp [hka]
  | trans h₁ h₂ ih₁ ih₂ =>
      rw [ih₁ hnd]
      exact ih₂ ((h₁.map Prod.fst).nodup_iff.mp hnd)

mutual

/-- Serialization with a fixed replacer array is invariant under key
reordering at any nesting level (given JavaScript-well-formed objects). -/
theorem serOne_reorder (keys : List String) :
    ∀ (v v₂ : JVal), WFj v → ReorderJ v v₂ →
      serOne (some keys) v = serOne (some keys) v₂
  | .jnull, v₂, _, h => by
      match v₂, h with
      | .jnull, _ => rfl
  | .jbool b, v₂, _, h => by
      match v₂, h with
      | .jbool b₂, h => exact h ▸ rfl
  | .jnum n, v₂, _, h => by
      match v₂, h with
      | .jnum n₂, h => exact h ▸ rfl
  | .jstr s, v₂, _, h => by
      match v₂, h with
      | .jstr s₂, h => exact h ▸ rfl
  | .jarr es, v₂, hwf, h => by
      match v₂, h with
      | .jarr es₂, h =>
        have hw : WFmany es := hwf
        simp only [serOne]
        rw [serMany_reorder keys es es₂ hw h]
  | .jobj fs, v₂, hwf, h => by
      match v₂, h with
      | .jobj fs₂, h =>
        have hw : (fs.map Prod.fst).Nodup ∧ WFfields fs := hwf
        obtain ⟨mid, hfm, hperm⟩ := h
        have hser : serFields (some keys) fs = serFields (some keys) mid :=
          serFields_reorder keys fs mid hw.2 hfm
        have hpermser :
            (serFields (some keys) mid).Perm (serFields (some keys) fs₂) := by
          rw [serFields_eq_map, serFields_eq_map]
          exact hperm.map _
        have hndmid : ((serFields (some keys) mid).map Prod.fst).Nodup := by
          rw [← hser, serFields_eq_map]
          simpa [List.map_map, Function.comp_def] using hw.1
        have hlk : ∀ k, lookupStr k (serFields (some keys) fs) =
            lookupStr k (serFields (some keys) fs₂) := by
          intro k
          rw [hser]
          exact lookupStr_perm hpermser hndmid k
        have hfun : (fun k => (lookupStr k (serFields (some keys) fs)).map
              (fun sv => quoteStr k ++ ":" ++ sv))
            = (fun k => (lookupStr k (serFields (some keys) fs₂)).map
              (fun sv => quoteStr k ++ ":" ++ sv)) := by
          funext k
          rw [hlk k]
        simp only [serOne]
        rw [hfun]

/-- Array-element serialization is invariant under element reordering. -/
theorem serMany_reorder (keys : List String) :
    ∀ (vs vs₂ : List JVal), WFmany vs → ReorderMany vs vs₂ →
      serMany (some keys) vs = serMany (some keys) vs₂
  | [], vs₂, _, h => by
      match vs₂, h with
      | [], _ => rfl
  | v :: vs, vs₂, hwf, h => by
      match vs₂, h with
      | v₂ :: vs₂, h =>
        have hw : WFj v ∧ WFmany vs := hwf
        have hh : ReorderJ v v₂ ∧ ReorderMany vs vs₂ := h
        simp only [serMany]
        rw [serOne_reorder keys v v₂ hw.1 hh.1, serMany_reorder keys vs vs₂ hw.2 hh.2]

/-- Field serialization is invariant under reordering of the values. -/
theorem serFields_reorder (keys : List String) :
    ∀ (fs mid : List (String × JVal)), WFfields fs → ReorderFields fs mid →
      serFields (some keys) fs = serFields (some keys) mid
  | [], mid, _, h => by
      match mid, h with
      | [], _ => rfl
  | (k, v) :: fs, mid, hwf, h => by
      match mid, h with
      | (k₂, v₂) :: mid, h =>
        have hw : WFj v ∧ WFfields fs := hwf
        obtain ⟨hk, hv, hrest⟩ := (h : k = k₂ ∧ ReorderJ v v₂ ∧ ReorderFields fs mid)
        simp only [serFields]
        rw [hk, serOne_reorder keys v v₂ hw.1 hv, serFields_reorder keys fs mid hw.2 hrest]

end

/-- Sorting is invariant under permutation of the input. -/
theorem sortStrings_eq_of_perm {l l₂ : List String} (h : l.Perm l₂) :
    sortStrings l = sortStrings l₂ :=
  List.eq_of_perm_of_sorted
    ((List.perm_insertionSort _ l).trans (h.trans (List.perm_insertionSort _ l₂).symm))
    (List.sorted_insertionSort _ l)
    (List.sorted_insertionSort _ l₂)

mutual

/-- Modelled from the spec: the canonicalization §4.1 describes —
"Canonicalization recursively sorts object keys; array order is preserved."
Every object serializes all of its own fields, with its own keys sorted, at
every nesting level.  This is the spec-side definition used to compare the
spec text against the code's `canonicalFields`; it is not what the code
computes. -/
def canonSpecOne : JVal → String
  | .jnull => "null"
  | .jbool b => if b then "true" else "false"
  | .jnum n => toString n
  | .jstr s => quoteStr s
  | .jarr es => "[" ++ String.intercalate "," (canonSpecMany es) ++ "]"
  | .jobj fs =>
      "\x7b" ++ String.intercalate ","
        (((canonSpecFields fs).insertionSort (fun a b => strLe a.1 b.1 = true)).map
          (fun kv => quoteStr kv.1 ++ ":" ++ kv.2)) ++ "\x7d"

/-- Spec-side serialization of array elements. -/
def canonSpecMany : List JVal → List String
  | [] => []
  | v :: vs => canonSpecOne v :: canonSpecMany vs

/-- Spec-side serialization of object fields (before key sorting). -/
def canonSpecFields : List (String × JVal) → List (String × String)
  | [] => []
  | (k, v) :: fs => (k, canonSpecOne v) :: canonSpecFields fs

end

/-- Spec-side canonicalization of a record. -/
def canonicalSpec (fs : List (String × JVal)) : String := canonSpecOne (JVal.jobj fs)

/-- C1 (amended).  For every JavaScript-well-formed record and every
reordering of its object keys at any nesting level, the code's canonical
serialization (`JSON.stringify(obj, Object.keys(obj).sort())`) is identical,
and `contentId(r) = contentId(r')` iff `canonical(r) = canonical(r')`.  (The
claim's description of the canonicalization as recursively sorting all
object keys is refuted separately: the sorted top-level key list acts as a
whitelist at every nesting level.) -/
theorem contentId_reorder_invariant (fs fs₂ : List (String × JVal))
    (hwf : WFj (JVal.jobj fs)) (hre : ReorderJ (JVal.jobj fs) (JVal.jobj fs₂)) :
    canonicalFields fs = canonicalFields fs₂ ∧
    (contentId fs = contentId fs₂ ↔ canonicalFields fs = canonicalFields fs₂) := by
  have hkeys : (fs.map Prod.fst).Perm (fs₂.map Prod.fst) := by
    obtain ⟨mid, hfm, hperm⟩ :=
      (hre : ∃ mid, ReorderFields fs mid ∧ mid.Perm fs₂)
    rw [reorderFields_keys hfm]
    exact hperm.map Prod.fst
  have hcan : canonicalFields fs = canonicalFields fs₂ := by
    unfold canonicalFields
    rw [← sortStrings_eq_of_perm hkeys]
    exact serOne_reorder _ _ _ hwf hre
  refine ⟨hcan, fun _ => hcan, fun h => ?_⟩
  unfold contentId
  rw [h]

/-- Concrete record with a nested object, and the same record reordered at
both levels; used by the C1 witness. -/
def c1fs : List (String × JVal) :=
  [("b", JVal.jnum 1), ("a", JVal.jobj [("y", JVal.jnum 2), ("x", JVal.jnum 3)])]

/-- Reordered form of `c1fs`. -/
def c1fsR : List (String × JVal) :=
  [("a", JVal.jobj [("x", JVal.jnum 3), ("y", JVal.jnum 2)]), ("b", JVal.jnum 1)]

/-- Witness for C1: the invariance theorem applied to a concrete nested
record and a concrete reordering of it. -/
theorem contentId_reorder_invariant_witness :
    (WFj (JVal.jobj c1fs) ∧ ReorderJ (JVal.jobj c1fs) (JVal.jobj c1fsR)) ∧
    (canonicalFields c1fs = canonicalFields c1fsR ∧
      (contentId c1fs = contentId c1fsR ↔ canonicalFields c1fs = canonicalFields c1fsR)) := by
  have hwf : WFj (JVal.jobj c1fs) :=
    ⟨by decide, trivial, ⟨by decide, trivial, trivial, trivial⟩, trivial⟩
  have hre : ReorderJ (JVal.jobj c1fs) (JVal.jobj c1fsR) :=
    ⟨[("b", JVal.jnum 1), ("a", JVal.jobj [("x", JVal.jnum 3), ("y", JVal.jnum 2)])],
      ⟨rfl, rfl,
        ⟨rfl, ⟨[("y", JVal.jnum 2), ("x", JVal.jnum 3)],
          ⟨rfl, rfl, rfl, rfl, trivial⟩,
          List.Perm.swap ("x", JVal.jnum 3) ("y", JVal.jnum 2) []⟩, trivial⟩⟩,
      List.Perm.swap ("a", JVal.jobj [("x", JVal.jnum 3), ("y", JVal.jnum 2)])
        ("b", JVal.jnum 1) []⟩
  exact ⟨⟨hwf, hre⟩, contentId_reorder_invariant c1fs c1fsR hwf hre⟩

/-- C1 counterexample.  The claim describes canonicalization as recursively
sorting object keys while preserving everything else; the code instead uses
the sorted top-level key list as a property whitelist at every nesting
level.  Concretely, for the record with fields `b = 1` and
`a = (object with c = 2)`, the code's canonical form drops the nested key
`c` and differs from the recursive-key-sort serialization; consequently two
records that differ in a nested value share a `contentId`. -/
theorem contentId_canonicalization_counterexample :
    canonicalFields [("b", JVal.jnum 1), ("a", JVal.jobj [("c", JVal.jnum 2)])] ≠
      canonicalSpec [("b", JVal.jnum 1), ("a", JVal.jobj [("c", JVal.jnum 2)])] ∧
    contentId [("a", JVal.jobj [("x", JVal.jnum 1)])] =
      contentId [("a", JVal.jobj [("x", JVal.jnum 2)])] := by
  exact ⟨by decide, by decide⟩

/-- Sibling position in a Merkle inclusion proof
(crypto/index.ts `MerkleProof.siblings[].position`). -/
inductive SibPos where
  | left : SibPos
  | right : SibPos
deriving DecidableEq

/-- Embeds the `MerkleProof` interface (crypto/index.ts lines 55-60).
`leafIndex` is an `Int` because the JavaScript field is a plain number that
`generateMerkleProof` range-checks. -/
structure MerkleProof where
  root : String
  leaf : String
  leafIndex : Int
  siblings : List (String × SibPos)
deriving DecidableEq

/-- One level of the hashing loop shared by `getMerkleRoot` and
`generateMerkleProof`: pair up hashes from the left, duplicating an odd
final node as its own sibling (`hashes[i + 1] || left`). -/
def combineLevel : List String → List String
  | [] => []
  | [x] => [sha256 (x ++ x)]
  | x :: y :: rest => sha256 (x ++ y) :: combineLevel rest

theorem combineLevel_length :
    ∀ hs : List String, (combineLevel hs).length = (hs.length + 1) / 2
  | [] => rfl
  | [_] => by simp [combineLevel]
  | _ :: _ :: rest => by
      simp only [combineLevel, List.length_cons, combineLevel_length rest]
      omega

/-- The `while (hashes.length > 1)` loop of `getMerkleRoot`
(crypto/index.ts lines 43-51), returning `hashes[0]`.  The loop is embedded
with an explicit iteration bound so that it stays structurally recursive
(and hence evaluable); each iteration strictly shrinks the list, so a bound
equal to the initial length never runs out (`rootLoopF_congr`). -/
def rootLoopF : Nat → List String → String
  | 0, hs => hs.headD ""
  | fuel + 1, hs =>
      if 1 < hs.length then rootLoopF fuel (combineLevel hs) else hs.headD ""

/-- The loop of `getMerkleRoot` with its sufficient bound. -/
def rootLoop (hs : List String) : String := rootLoopF hs.length hs

/-- Embeds `getMerkleRoot` (crypto/index.ts lines 40-53). -/
def getMerkleRoot (leaves : List String) : String :=
  if leaves.isEmpty then sha256 "empty" else rootLoop (leaves.map sha256)

/-- Any two sufficient iteration bounds give the same result, so the bound
in `rootLoop` is an artifact of the embedding, not a semantic change. -/
theorem rootLoopF_congr :
    ∀ (f₁ f₂ : Nat) (hs : List String), hs.length ≤ f₁ → hs.length ≤ f₂ →
      rootLoopF f₁ hs = rootLoopF f₂ hs := by
  intro f₁
  induction f₁ with
  | zero =>
      intro f₂ hs h1 h2
      obtain rfl : hs = [] := List.length_eq_zero.mp (by omega)
      cases f₂ with
      | zero => rfl
      | succ f => simp [rootLoopF]
  | succ f ih =>
      intro f₂ hs h1 h2
      cases f₂ with
      | zero =>
          obtain rfl : hs = [] := List.length_eq_zero.mp (by omega)
          simp [rootLoopF]
      | succ f₂ =>
          simp only [rootLoopF]
          by_cases h : 1 < hs.length
          · rw [if_pos h, if_pos h]
            have hc := combineLevel_length hs
            exact ih f₂ (combineLevel hs) (by omega) (by omega)
          · rw [if_neg h, if_neg h]

/-- Unfolding step for the root loop. -/
theorem rootLoop_step {hs : List String} (h : 1 < hs.length) :
    rootLoop hs = rootLoop (combineLevel hs) := by
  obtain ⟨m, hm⟩ : ∃ m, hs.length = m + 1 := ⟨hs.length - 1, by omega⟩
  unfold rootLoop
  rw [hm]
  simp only [rootLoopF]
  rw [if_pos h]
  have hc := combineLevel_length hs
  exact rootLoopF_congr m (combineLevel hs).length (combineLevel hs) (by omega) le_rfl

/-- Siblings recorded at one level of `generateMerkleProof`'s loop: at pair
start positions `i, i+2, …`, record the partner of the node at position
`index` (the duplicated left node for an odd final position). -/
def levelSibs (index : Nat) : Nat → List String → List (String × SibPos)
  | _, [] => []
  | i, [x] =>
      if index = i ∨ index = i + 1 then
        [(x, if index = i then SibPos.right else SibPos.left)]
      else []
  | i, x :: y :: rest =>
      (if index = i then [(y, SibPos.right)]
       else if index = i + 1 then [(x, SibPos.left)] else []) ++
        levelSibs index (i + 2) rest

/-- The `while (hashes.length > 1)` loop of `generateMerkleProof`
(crypto/index.ts lines 67-78): accumulates siblings level by level while
halving the index (`Math.floor(index / 2)`), returning the final
`hashes[0]` and the sibling list.  Embedded with the same explicit
iteration bound as `rootLoopF`. -/
def genLoopF :
    Nat → List String → Nat → List (String × SibPos) → String × List (String × SibPos)
  | 0, hs, _, acc => (hs.headD "", acc)
  | fuel + 1, hs, index, acc =>
      if 1 < hs.length then
        genLoopF fuel (combineLevel hs) (index / 2) (acc ++ levelSibs index 0 hs)
      else (hs.headD "", acc)

/-- Embeds `generateMerkleProof` (crypto/index.ts lines 62-80). -/
def generateMerkleProof (leaves : List String) (idx : Int) : Option MerkleProof :=
  if idx < 0 ∨ (leaves.length : Int) ≤ idx then none
  else
    let res := genLoopF leaves.length (leaves.map sha256) idx.toNat []
    some ⟨res.1, sha256 (leaves.getD idx.toNat ""), idx, res.2⟩

/-- One verification step: fold a sibling onto the running hash by
position. -/
def foldSib (h : String) (s : String × SibPos) : String :=
  match s.2 with
  | SibPos.left => sha256 (s.1 ++ h)
  | SibPos.right => sha256 (h ++ s.1)

/-- Embeds `verifyMerkleProof` (crypto/index.ts lines 82-88). -/
def verifyMerkleProof (p : MerkleProof) : Bool :=
  p.siblings.foldl foldSib p.leaf == p.root

/-- Positions left of the offset record no siblings. -/
theorem levelSibs_lt : ∀ (hs : List String) (i index : Nat), index < i →
    levelSibs index i hs = []
  | [], _, _, _ => rfl
  | [_], i, index, h => by
      simp only [levelSibs, if_neg (by omega : ¬(index = i ∨ index = i + 1))]
  | _ :: _ :: rest, i, index, h => by
      simp only [levelSibs, if_neg (by omega : ¬index = i),
        if_neg (by omega : ¬index = i + 1), List.nil_append]
      exact levelSibs_lt rest (i + 2) index (by omega)

/-- Level invariant: folding the recorded sibling onto the hash at position
`index - i` of the level yields the hash at position `(index - i) / 2` of
the combined level. -/
theorem levelSibs_fold :
    ∀ (hs : List String) (i index : Nat), i ≤ index → index < i + hs.length →
      (index - i) / 2 < (combineLevel hs).length ∧
      List.foldl foldSib (hs.getD (index - i) "") (levelSibs index i hs)
        = (combineLevel hs).getD ((index - i) / 2) ""
  | [], i, index, hge, hlt => by
      rw [List.length_nil] at hlt
      exact absurd hlt (by omega)
  | [x], i, index, hge, hlt => by
      rw [List.length_singleton] at hlt
      have hi : index = i := by omega
      have e1 : levelSibs index i [x] = [(x, SibPos.right)] := by
        simp only [levelSibs]
        rw [if_pos (Or.inl hi), if_pos hi]
      have e2 : index - i = 0 := by omega
      rw [e1, e2]
      exact ⟨by simp [combineLevel], rfl⟩
  | x :: y :: rest, i, index, hge, hlt => by
      rw [List.length_cons, List.length_cons] at hlt
      rcases Nat.lt_trichotomy index (i + 1) with hcase | hcase | hcase
      · have hi : index = i := by omega
        have e1 : levelSibs index i (x :: y :: rest) = [(y, SibPos.right)] := by
          simp only [levelSibs]
          rw [if_pos hi, levelSibs_lt rest (i + 2) index (by omega), List.append_nil]
        have e2 : index - i = 0 := by omega
        rw [e1, e2]
        refine ⟨?_, rfl⟩
        have := combineLevel_length (x :: y :: rest)
        rw [List.length_cons, List.length_cons] at this
        omega
      · have e1 : levelSibs index i (x :: y :: rest) = [(x, SibPos.left)] := by
          simp only [levelSibs]
          rw [if_neg (by omega : ¬index = i), if_pos hcase,
            levelSibs_lt rest (i + 2) index (by omega), List.append_nil]
        have e2 : index - i = 1 := by omega
        rw [e1, e2]
        refine ⟨?_, rfl⟩
        have := combineLevel_length (x :: y :: rest)
        rw [List.length_cons, List.length_cons] at this
        omega
      · obtain ⟨hlen, hfold⟩ :=
          levelSibs_fold rest (i + 2) index (by omega) (by omega)
        have e1 : levelSibs index i (x :: y :: rest) = levelSibs index (i + 2) rest := by
          simp only [levelSibs]
          rw [if_neg (by omega : ¬index = i), if_neg (by omega : ¬index = i + 1),
            List.nil_append]
        have e2 : (x :: y :: rest).getD (index - i) "" = rest.getD (index - (i + 2)) "" := by
          have h3 : index - i = (index - (i + 2)) + 1 + 1 := by omega
          rw [h3, List.getD_cons_succ, List.getD_cons_succ]
        have e3 : (index - i) / 2 = (index - (i + 2)) / 2 + 1 := by omega
        have e4 : (combineLevel (x :: y :: rest)).getD ((index - i) / 2) ""
            = (combineLevel rest).getD ((index - (i + 2)) / 2) "" := by
          rw [e3]
          exact List.getD_cons_succ
        constructor
        · rw [e3, show combineLevel (x :: y :: rest)
            = sha256 (x ++ y) :: combineLevel rest from rfl, List.length_cons]
          omega
        · rw [e1, e2, e4]
          exact hfold

/-- Main invariant of the proof-generation loop: with a sufficient bound it
produces the root of the level together with a sibling trail that folds the
hash at `index` up to that root. -/
theorem genLoopF_spec :
    ∀ (fuel : Nat) (hs : List String) (index : Nat) (acc : List (String × SibPos)),
      hs.length ≤ fuel → index < hs.length →
      ∃ tail, genLoopF fuel hs index acc = (rootLoop hs, acc ++ tail) ∧
        List.foldl foldSib (hs.getD index "") tail = rootLoop hs := by
  intro fuel
  induction fuel with
  | zero =>
      intro hs index acc hle hlt
      exact absurd hlt (by omega)
  | succ fuel ih =>
      intro hs index acc hle hlt
      by_cases h1 : 1 < hs.length
      · have hc := combineLevel_length hs
        obtain ⟨tail, heq, hf⟩ :=
          ih (combineLevel hs) (index / 2) (acc ++ levelSibs index 0 hs)
            (by omega) (by omega)
        obtain ⟨hb, hfold⟩ := levelSibs_fold hs 0 index (Nat.zero_le _) (by omega)
        rw [Nat.sub_zero] at hfold
        refine ⟨levelSibs index 0 hs ++ tail, ?_, ?_⟩
        · simp only [genLoopF]
          rw [if_pos h1, heq, rootLoop_step h1, List.append_assoc]
        · rw [List.foldl_append, hfold, hf, rootLoop_step h1]
      · have hlen1 : hs.length = 1 := by omega
        obtain ⟨x, rfl⟩ := List.length_eq_one.mp hlen1
        have hidx : index = 0 := by omega
        subst hidx
        refine ⟨[], ?_, ?_⟩
        · simp [genLoopF, rootLoop, rootLoopF]
        · simp [rootLoop, rootLoopF]

/-- C5.  Merkle round trip: for every non-empty leaf list and every valid
index, `generateMerkleProof` succeeds, `verifyMerkleProof` accepts the
resulting proof, and the proof's root equals `getMerkleRoot` of the
leaves. -/
theorem merkle_round_trip (leaves : List String) (idx : Int)
    (h0 : 0 ≤ idx) (hlt : idx < (leaves.length : Int)) :
    ∃ p, generateMerkleProof leaves idx = some p ∧
      verifyMerkleProof p = true ∧ p.root = getMerkleRoot leaves := by
  have hn : idx.toNat < leaves.length := by omega
  have hne : ¬leaves.isEmpty := by
    cases leaves with
    | nil => simp at hn
    | cons a t => simp [List.isEmpty]
  obtain ⟨tail, heq, hf⟩ :=
    genLoopF_spec leaves.length (leaves.map sha256) idx.toNat []
      (by simp) (by simpa using hn)
  have hleaf : (leaves.map sha256).getD idx.toNat "" = sha256 (leaves.getD idx.toNat "") := by
    rw [List.getD_eq_getElem _ _ (by simpa using hn), List.getD_eq_getElem _ _ hn,
      List.getElem_map]
  refine ⟨⟨rootLoop (leaves.map sha256), sha256 (leaves.getD idx.toNat ""), idx, tail⟩,
    ?_, ?_, ?_⟩
  · unfold generateMerkleProof
    rw [if_neg (by omega)]
    simp only [heq, List.nil_append]
  · simp only [verifyMerkleProof]
    rw [← hleaf, hf]
    exact beq_self_eq_true _
  · unfold getMerkleRoot
    rw [if_neg hne]

/-- Witness for C5: the round trip at the concrete leaves
`["a", "b", "c"]` and index 1. -/
theorem merkle_round_trip_witness :
    ((0 : Int) ≤ 1 ∧ (1 : Int) < ((["a", "b", "c"] : List String).length : Int)) ∧
    ∃ p, generateMerkleProof ["a", "b", "c"] 1 = some p ∧
      verifyMerkleProof p = true ∧ p.root = getMerkleRoot ["a", "b", "c"] :=
  ⟨⟨by decide, by decide⟩, merkle_round_trip ["a", "b", "c"] 1 (by decide) (by decide)⟩

/-- Duplicating the trailing element of an odd-length level does not change
the combined level, because the odd node is already hashed against a copy
of itself. -/
theorem combineLevel_append_last :
    ∀ (hs : List String) (x : String), hs.getLast? = some x → hs.length % 2 = 1 →
      combineLevel (hs ++ [x]) = combineLevel hs
  | [], x, hlast, _ => by simp at hlast
  | [y], x, hlast, _ => by
      simp only [List.getLast?_singleton, Option.some_inj] at hlast
      subst hlast
      rfl
  | y :: z :: rest, x, hlast, hodd => by
      have hrest : rest ≠ [] := by
        intro h
        rw [h] at hodd
        simp at hodd
      have hlast2 : rest.getLast? = some x := by
        cases rest with
        | nil => exact absurd rfl hrest
        | cons a t =>
            rw [List.getLast?_cons_cons, List.getLast?_cons_cons] at hlast
            exact hlast
      have hodd2 : rest.length % 2 = 1 := by
        simp only [List.length_cons] at hodd
        omega
      show combineLevel (y :: z :: (rest ++ [x])) = combineLevel (y :: z :: rest)
      cases rest with
      | nil => exact absurd rfl hrest
      | cons a t =>
          simp only [combineLevel, List.cons_append]
          congr 1
          exact combineLevel_append_last (a :: t) x hlast2 hodd2

/-- C9.  Merkle root collision on odd levels: for every leaf list of odd
length at least 3, appending a copy of the last leaf leaves
`getMerkleRoot` unchanged, because the odd trailing node is hashed against
a duplicate of itself; distinct evidence sets therefore commit to the same
root. -/
theorem getMerkleRoot_duplicate_last (leaves : List String) (x : String)
    (hlast : leaves.getLast? = some x) (h3 : 3 ≤ leaves.length)
    (hodd : leaves.length % 2 = 1) :
    getMerkleRoot (leaves ++ [x]) = getMerkleRoot leaves := by
  have hne : ¬leaves.isEmpty := by
    cases leaves with
    | nil => simp at h3
    | cons a t => simp [List.isEmpty]
  have hne2 : ¬(leaves ++ [x]).isEmpty := by
    cases leaves with
    | nil => simp at h3
    | cons a t => simp [List.isEmpty]
  unfold getMerkleRoot
  rw [if_neg hne, if_neg hne2, List.map_append, List.map_singleton]
  rw [rootLoop_step (by simp; omega), @rootLoop_step (leaves.map sha256) (by simp; omega)]
  congr 1
  apply combineLevel_append_last
  · rw [List.getLast?_map, hlast]
    rfl
  · simp [hodd]

/-- Witness for C9: duplicating the last of three leaves. -/
theorem getMerkleRoot_duplicate_last_witness :
    ((["a", "b", "c"] : List String).getLast? = some "c" ∧
      3 ≤ (["a", "b", "c"] : List String).length ∧
      (["a", "b", "c"] : List String).length % 2 = 1) ∧
    getMerkleRoot ["a", "b", "c", "c"] = getMerkleRoot ["a", "b", "c"] :=
  ⟨⟨by decide, by decide, by decide⟩,
    getMerkleRoot_duplicate_last ["a", "b", "c"] "c" (by decide) (by decide) (by decide)⟩

/-- C10.  `verifyMerkleProof` never reads `leafIndex`: two proofs agreeing
on `root`, `leaf` and `siblings` verify identically whatever their
`leafIndex` fields are, so a tampered index is undetectable. -/
theorem verifyMerkleProof_ignores_leafIndex (root leaf : String) (i i₂ : Int)
    (sibs : List (String × SibPos)) :
    verifyMerkleProof ⟨root, leaf, i, sibs⟩ = verifyMerkleProof ⟨root, leaf, i₂, sibs⟩ := rfl

/-- PostgreSQL `jsonb` key comparison: keys are stored sorted by length
first, then bytewise.  Bytewise comparison of the UTF-8 bytes agrees with
the code-point comparison `charsLe`, and `String.length` with the byte
length, on the ASCII keys appearing here. -/
def jsonbKeyLe (a b : String) : Bool :=
  if a.length = b.length then charsLe a.data b.data
  else Nat.blt a.length b.length

/-- Sorting of an object field list into `jsonb` storage order. -/
def sortFieldsJsonb (fs : List (String × JVal)) : List (String × JVal) :=
  fs.insertionSort (fun a b => jsonbKeyLe a.1 b.1 = true)

mutual

/-- PostgreSQL `jsonb` normalization of a stored value: a `JSONB` column
does not preserve the writer's object key order — keys come back sorted by
length first, then bytewise, at every nesting level (and the `pg` driver's
parse preserves that order in the resulting JavaScript object).  Arrays
and scalars are unchanged. -/
def jsonbNorm : JVal → JVal
  | .jnull => .jnull
  | .jbool b => .jbool b
  | .jnum n => .jnum n
  | .jstr s => .jstr s
  | .jarr es => .jarr (jsonbNormMany es)
  | .jobj fs => .jobj (sortFieldsJsonb (jsonbNormFields fs))

/-- Normalization of array elements. -/
def jsonbNormMany : List JVal → List JVal
  | [] => []
  | v :: vs => jsonbNorm v :: jsonbNormMany vs

/-- Normalization of object field values (before key sorting). -/
def jsonbNormFields : List (String × JVal) → List (String × JVal)
  | [] => []
  | (k, v) :: fs => (k, jsonbNorm v) :: jsonbNormFields fs

end

/-- A stored `audit_log` row (audit/auditLog.ts; schema table `audit_log`).
`id BIGSERIAL` is represented by the position in the list: `SELECT … ORDER
BY id ASC` returns the list in insertion order.  Timestamps are carried as
their ISO strings (`timestamp.toISOString()` round-trips through the
store).  `payload` holds what a later `SELECT` returns, i.e. the
jsonb-normalized value, not the object that was hashed at append time. -/
structure AuditRow where
  cid : String
  eventType : String
  actor : String
  entityIds : List String
  payload : JVal
  previousHash : String
  hash : String
  timestamp : String

/-- In-memory state of `AuditLogManager`: the `lastHash` field plus the
persisted rows. -/
structure AuditState where
  lastHash : String
  events : List AuditRow

/-- Fresh manager over an empty table: `lastHash = "genesis"`
(auditLog.ts line 7). -/
def auditInit : AuditState := ⟨"genesis", []⟩

/-- The `content` object hashed by `log` (auditLog.ts line 23), fields in
source insertion order. -/
def auditContentFields (t actor : String) (sortedIds : List String) (payload : JVal)
    (ts prev : String) : List (String × JVal) :=
  [("type", JVal.jstr t), ("actor", JVal.jstr actor),
    ("entityIds", JVal.jarr (sortedIds.map JVal.jstr)), ("payload", payload),
    ("timestamp", JVal.jstr ts), ("previousHash", JVal.jstr prev)]

/-- Embeds `AuditLogManager.log` (auditLog.ts lines 17-32) on the
persistence-enabled path (`ENABLE_AUDIT_LOG = true`; with it disabled the
method returns a detached event with `previousHash = hash = "disabled"` and
no chain exists to verify).  `entityIds.sort()` sorts in place, so the
stored row also holds the sorted ids.  The hash is computed over the live
payload object (insertion-order keys), while the `payload JSONB` column
stores the jsonb-normalized value. -/
def logEvent (st : AuditState) (t actor : String) (ids : List String)
    (payload : JVal) (ts : String) : AuditState × AuditRow :=
  let sorted := sortStrings ids
  let fields := auditContentFields t actor sorted payload ts st.lastHash
  let eventId := contentId fields
  let eventHash := sha256 (serOne none (JVal.jobj fields))
  let row : AuditRow :=
    ⟨eventId, t, actor, sorted, jsonbNorm payload, st.lastHash, eventHash, ts⟩
  (⟨eventHash, st.events ++ [row]⟩, row)

/-- Hash recomputation performed by `verifyChain` (auditLog.ts lines
42-43), from the stored row — hence from the jsonb-normalized payload. -/
def recomputeHash (r : AuditRow) : String :=
  sha256 (serOne none (JVal.jobj
    (auditContentFields r.eventType r.actor (sortStrings r.entityIds) r.payload
      r.timestamp r.previousHash)))

/-- The verification walk of `verifyChain` (auditLog.ts lines 39-45): link
check (skipped for the first row), hash recomputation, then advance.  On
failure the source reports `events.indexOf(e)`, which equals the walk
position for pairwise-distinct rows; the success path, the subject of C7,
is identical. -/
def chainWalk : String → Nat → List AuditRow → Bool × Nat
  | _, k, [] => (true, k)
  | prev, k, r :: rest =>
      if r.previousHash ≠ prev ∧ k ≠ 0 then (false, k)
      else if recomputeHash r ≠ r.hash then (false, k)
      else chainWalk r.hash (k + 1) rest

/-- Embeds `AuditLogManager.verifyChain` (auditLog.ts lines 34-47): rows in
id order, `prev` seeded from the first row's stored `previous_hash`. -/
def verifyChain (rows : List AuditRow) : Bool × Nat :=
  match rows with
  | [] => (true, 0)
  | r :: _ => chainWalk r.previousHash 0 rows

/-- A sequence of `append` calls (the arguments of `log`). -/
structure LogCall where
  eventType : String
  actor : String
  entityIds : List String
  payload : JVal
  timestamp : String

/-- Runs a sequence of `log` calls against the manager state. -/
def applyLogs (st : AuditState) : List LogCall → AuditState
  | [] => st
  | c :: cs => applyLogs (logEvent st c.eventType c.actor c.entityIds c.payload c.timestamp).1 cs

theorem sortStrings_idem (l : List String) : sortStrings (sortStrings l) = sortStrings l :=
  List.Sorted.insertionSort_eq (List.sorted_insertionSort _ l)

/-- Serialization of the audit content object depends on the payload only
through the payload's own serialization. -/
theorem serOne_auditContent_congr (t actor : String) (ids : List String)
    (ts prev : String) {p p₂ : JVal} (h : serOne none p = serOne none p₂) :
    serOne none (JVal.jobj (auditContentFields t actor ids p ts prev))
      = serOne none (JVal.jobj (auditContentFields t actor ids p₂ ts prev)) := by
  simp only [auditContentFields, serOne, serFields]
  rw [h]

/-- Rows written by `log` recompute to their stored hash exactly when the
jsonb round trip leaves the payload's serialization unchanged (the stored
ids are already sorted, and sorting is idempotent). -/
theorem logEvent_recompute (st : AuditState) (t actor : String) (ids : List String)
    (payload : JVal) (ts : String)
    (h : serOne none (jsonbNorm payload) = serOne none payload) :
    recomputeHash (logEvent st t actor ids payload ts).2
      = (logEvent st t actor ids payload ts).2.hash := by
  simp only [logEvent, recomputeHash]
  rw [sortStrings_idem]
  exact congrArg sha256 (serOne_auditContent_congr _ _ _ _ _ h)

/-- Hash of the chain tail: the last row's hash, or the seed if there is
none. -/
def endHash (prev : String) (rows : List AuditRow) : String :=
  (rows.getLast?).elim prev AuditRow.hash

theorem endHash_any_default (p q : String) :
    ∀ (l : List AuditRow), l ≠ [] → endHash p l = endHash q l
  | [], h => absurd rfl h
  | r :: t, _ => by
      unfold endHash
      rcases h : (r :: t).getLast? with _ | y
      · exact absurd (List.getLast?_eq_none_iff.mp h) (by simp)
      · rfl

theorem endHash_cons (prev : String) (a : AuditRow) (rest : List AuditRow) :
    endHash prev (a :: rest) = endHash a.hash rest := by
  cases rest with
  | nil => rfl
  | cons b t =>
      show endHash prev (a :: b :: t) = endHash a.hash (b :: t)
      rw [← endHash_any_default prev a.hash (b :: t) (by simp)]
      unfold endHash
      rw [List.getLast?_cons_cons]

theorem endHash_concat (prev : String) (rows : List AuditRow) (r : AuditRow) :
    endHash prev (rows ++ [r]) = r.hash := by
  simp [endHash, List.getLast?_concat]

/-- Appending a well-linked, well-hashed row preserves a successful walk. -/
theorem chainWalk_snoc :
    ∀ (rows : List AuditRow) (prev : String) (k : Nat) (r : AuditRow),
      chainWalk prev k rows = (true, k + rows.length) →
      r.previousHash = endHash prev rows →
      recomputeHash r = r.hash →
      chainWalk prev k (rows ++ [r]) = (true, k + rows.length + 1)
  | [], prev, k, r, _, hlink, hrec => by
      simp only [List.nil_append, List.length_nil, Nat.add_zero, chainWalk]
      rw [if_neg (by simp [hlink, endHash]), if_neg (by simp [hrec])]
  | a :: rest, prev, k, r, hwalk, hlink, hrec => by
      simp only [chainWalk] at hwalk
      by_cases h1 : a.previousHash ≠ prev ∧ k ≠ 0
      · rw [if_pos h1] at hwalk
        exact absurd (congrArg Prod.fst hwalk) (by simp)
      · rw [if_neg h1] at hwalk
        by_cases h2 : recomputeHash a ≠ a.hash
        · rw [if_pos h2] at hwalk
          exact absurd (congrArg Prod.fst hwalk) (by simp)
        · rw [if_neg h2] at hwalk
          have hlen : k + (a :: rest).length = k + 1 + rest.length := by
            rw [List.length_cons]
            omega
          have hwalk2 : chainWalk a.hash (k + 1) rest = (true, k + 1 + rest.length) := by
            rw [hwalk, hlen]
          have hstep := chainWalk_snoc rest a.hash (k + 1) r hwalk2
            (by rw [hlink, endHash_cons]) hrec
          have hlen2 : k + (a :: rest).length + 1 = k + 1 + rest.length + 1 := by
            rw [hlen]
          simp only [List.cons_append, chainWalk]
          rw [if_neg h1, if_neg h2, hlen2]
          exact hstep

/-- Invariant tying the manager state to a verifiable chain. -/
def AuditInv (st : AuditState) : Prop :=
  match st.events with
  | [] => st.lastHash = "genesis"
  | r0 :: _ =>
      chainWalk r0.previousHash 0 st.events = (true, st.events.length) ∧
      st.lastHash = endHash r0.previousHash st.events ∧
      r0.previousHash = "genesis"

theorem auditInv_init : AuditInv auditInit := rfl

theorem logEvent_events (st : AuditState) (t actor : String) (ids : List String)
    (payload : JVal) (ts : String) :
    (logEvent st t actor ids payload ts).1.events
      = st.events ++ [(logEvent st t actor ids payload ts).2] := rfl

theorem logEvent_lastHash (st : AuditState) (t actor : String) (ids : List String)
    (payload : JVal) (ts : String) :
    (logEvent st t actor ids payload ts).1.lastHash
      = (logEvent st t actor ids payload ts).2.hash := rfl

theorem logEvent_prev (st : AuditState) (t actor : String) (ids : List String)
    (payload : JVal) (ts : String) :
    (logEvent st t actor ids payload ts).2.previousHash = st.lastHash := rfl

theorem auditInv_log (st : AuditState) (hinv : AuditInv st) (c : LogCall)
    (hcan : serOne none (jsonbNorm c.payload) = serOne none c.payload) :
    AuditInv (logEvent st c.eventType c.actor c.entityIds c.payload c.timestamp).1 := by
  have hrec := logEvent_recompute st c.eventType c.actor c.entityIds c.payload
    c.timestamp hcan
  rcases hev : st.events with _ | ⟨r0, rest⟩
  · have hlast : st.lastHash = "genesis" := by
      unfold AuditInv at hinv
      rw [hev] at hinv
      exact hinv
    have he : (logEvent st c.eventType c.actor c.entityIds c.payload c.timestamp).1.events
        = [(logEvent st c.eventType c.actor c.entityIds c.payload c.timestamp).2] := by
      rw [logEvent_events, hev, List.nil_append]
    unfold AuditInv
    rw [he]
    refine ⟨?_, ?_, ?_⟩
    · simp only [chainWalk]
      rw [if_neg (by simp), if_neg (not_not.mpr hrec)]
      rfl
    · rw [logEvent_lastHash]
      rfl
    · rw [logEvent_prev, hlast]
  · unfold AuditInv at hinv
    rw [hev] at hinv
    obtain ⟨hchain, hlast, hgen⟩ := hinv
    have he : (logEvent st c.eventType c.actor c.entityIds c.payload c.timestamp).1.events
        = r0 :: (rest ++ [(logEvent st c.eventType c.actor c.entityIds c.payload c.timestamp).2]) := by
      rw [logEvent_events, hev, List.cons_append]
    have hsnoc := chainWalk_snoc (r0 :: rest) r0.previousHash 0
      (logEvent st c.eventType c.actor c.entityIds c.payload c.timestamp).2
      (by rw [Nat.zero_add]; exact hchain)
      (by rw [logEvent_prev, hlast])
      hrec
    unfold AuditInv
    rw [he]
    refine ⟨?_, ?_, hgen⟩
    · have hlen : (r0 :: (rest ++
          [(logEvent st c.eventType c.actor c.entityIds c.payload c.timestamp).2])).length
          = 0 + (r0 :: rest).length + 1 := by
        simp only [List.length_cons, List.length_append, List.length_nil]
        omega
      rw [hlen]
      exact hsnoc
    · rw [logEvent_lastHash]
      show _ = endHash r0.previousHash ((r0 :: rest) ++
        [(logEvent st c.eventType c.actor c.entityIds c.payload c.timestamp).2])
      rw [endHash_concat]

theorem auditInv_applyLogs :
    ∀ (calls : List LogCall) (st : AuditState),
      (∀ c ∈ calls, serOne none (jsonbNorm c.payload) = serOne none c.payload) →
      AuditInv st → AuditInv (applyLogs st calls)
  | [], _, _, hinv => hinv
  | c :: cs, st, hcan, hinv =>
      auditInv_applyLogs cs _ (fun x hx => hcan x (List.mem_cons_of_mem c hx))
        (auditInv_log st hinv c (hcan c (List.mem_cons_self c cs)))

theorem applyLogs_length :
    ∀ (calls : List LogCall) (st : AuditState),
      (applyLogs st calls).events.length = st.events.length + calls.length
  | [], _ => by simp [applyLogs]
  | c :: cs, st => by
      rw [applyLogs, applyLogs_length cs, logEvent_events, List.length_append,
        List.length_singleton, List.length_cons]
      omega

/-- Characterization behind C7: after any sequence of `append` calls
starting from the empty log, `verifyChain` returns `valid = true` with
`checkedEvents` equal to the number of appended events, and the first
stored event's `previousHash` is `"genesis"` — PROVIDED every appended
payload's serialization is unchanged by the jsonb round trip (keys already
in length-then-bytewise order at every nesting level).  Without that
proviso the statement is false: `append` hashes the live payload but
`verifyChain` recomputes from the jsonb-normalized payload read back
(`verifyChain_payload_normalization_bug`). -/
theorem auditChain_canonical_payloads (calls : List LogCall)
    (hcan : ∀ c ∈ calls, serOne none (jsonbNorm c.payload) = serOne none c.payload) :
    verifyChain (applyLogs auditInit calls).events = (true, calls.length) ∧
    ((applyLogs auditInit calls).events.head?.map AuditRow.previousHash
      = if calls.isEmpty then none else some "genesis") := by
  have hinv := auditInv_applyLogs calls auditInit hcan auditInv_init
  have hlen := applyLogs_length calls auditInit
  rcases hev : (applyLogs auditInit calls).events with _ | ⟨r0, rest⟩
  · have hc : calls.length = 0 := by
      rw [hev] at hlen
      simpa [auditInit] using hlen.symm
    have hemp : calls.isEmpty = true := by
      cases calls with
      | nil => rfl
      | cons a b => simp at hc
    constructor
    · rw [hc]
      rfl
    · simp [hemp]
  · unfold AuditInv at hinv
    rw [hev] at hinv
    obtain ⟨hchain, _, hgen⟩ := hinv
    have hlen2 : (r0 :: rest).length = calls.length := by
      rw [hev] at hlen
      simpa [auditInit] using hlen
    have hne : ¬calls.isEmpty = true := by
      cases calls with
      | nil => simp at hlen2
      | cons a b => simp
    constructor
    · show chainWalk r0.previousHash 0 (r0 :: rest) = (true, calls.length)
      rw [hchain, hlen2]
    · simp [List.head?_cons, hne, hgen]

/-- A two-append sequence whose payloads are jsonb-canonical (a single-key
object and `null`), so the characterization applies. -/
def c7calls : List LogCall :=
  [⟨"evaluation.created", "api", ["cid1", "alice", "bob"],
      JVal.jobj [("score", JVal.jnum 80)], "2026-01-01T00:00:00.000Z"⟩,
    ⟨"proof.generated", "api", ["p1"], JVal.jnull, "2026-01-01T00:00:01.000Z"⟩]

/-- The canonical-payload characterization at the concrete two-append
sequence: those payloads survive the jsonb round trip, so the chain
verifies. -/
theorem auditChain_canonical_payloads_example :
    verifyChain (applyLogs auditInit c7calls).events = (true, c7calls.length) ∧
    ((applyLogs auditInit c7calls).events.head?.map AuditRow.previousHash
      = if c7calls.isEmpty then none else some "genesis") :=
  auditChain_canonical_payloads c7calls (by decide)

/-- The append `logAttestationVerified` performs (auditLog.ts line 55):
event type `attestation.verified`, payload
`{verification: {verificationId, status, duration}}` with the
keys in that insertion order. -/
def c7badCall : LogCall :=
  ⟨"attestation.verified", "api", ["att1"],
    JVal.jobj [("verification", JVal.jobj
      [("verificationId", JVal.jstr "cid_v1"),
        ("status", JVal.jstr "verified"),
        ("duration", JVal.jnum 12)])],
    "2026-01-01T00:00:00.000Z"⟩

/-- C7 (code bug).  The claim — after any sequence of `append` calls,
`verifyChain` returns `valid = true` with `checkedEvents` equal to the
number of appends — fails on the code: `append` hashes
`JSON.stringify(content)` over the live payload object, then stores the
payload in the `payload JSONB` column, which reorders object keys (length
first, then bytewise) at every nesting level; `verifyChain` recomputes the
hash from the payload read back.  After the single append
`logAttestationVerified` performs, the inner keys come back as
`status, duration, verificationId` instead of
`verificationId, status, duration`, the serializations differ, the
recomputed hash mismatches the stored one, and `verifyChain` returns
`valid = false` with `checkedEvents = 0` instead of `(true, 1)`. -/
theorem verifyChain_payload_normalization_bug :
    verifyChain (applyLogs auditInit [c7badCall]).events = (false, 0) ∧
    serOne none (jsonbNorm c7badCall.payload) ≠ serOne none c7badCall.payload := by
  exact ⟨by decide, by decide⟩

/-- Modelled from the spec: `signObject` (spec §4.2) — Ed25519 over the
canonical serialization.  The signature scheme is the Node `crypto`
library, external to the repository; it is modelled as a deterministic tag
of the canonical bytes, which is all the analysed claims use. -/
def signObject (fs : List (String × JVal)) : String := "sig#" ++ canonicalFields fs

/-- A stored `evaluations` row (schema table `evaluations`); columns not
read by the analysed handlers (`expires_at`, `created_at`) are elided. -/
structure EvalRow where
  id : String
  fromEntityId : String
  toEntityId : String
  realmId : String
  domain : String
  score : Int
  weight : Rat
  rationale : Option String
  supportingAttestationIds : List String
  signature : String
deriving DecidableEq

/-- A stored `reputation_cache` row, reduced to the key columns the
`DELETE … WHERE subject_id = $1 AND realm_id = $2` statement and the
uniqueness constraint mention. -/
structure CacheRow where
  subjectId : String
  realmId : String
  domain : String
deriving DecidableEq

/-- Database state touched by the trust router: realm ids, evaluations,
reputation cache, and the audit log. -/
structure TrustDb where
  realms : List String
  evaluations : List EvalRow
  reputationCache : List CacheRow
  audit : AuditState

/-- Request body of `POST /trust/evaluations` (all required fields present;
the handler's missing-field guard is outside the embedded state space). -/
structure EvalReq where
  fromEntity : String
  toEntity : String
  realmId : String
  domain : String
  score : Int
  weight : Rat
  rationale : Option String
  supportingAttestations : List String

/-- The `data` object the handler signs and hashes
(trust.routes.ts line 21), fields in source order. -/
def evalDataFields (r : EvalReq) (ts : Int) : List (String × JVal) :=
  [("from", JVal.jstr r.fromEntity), ("to", JVal.jstr r.toEntity),
    ("realmId", JVal.jstr r.realmId), ("domain", JVal.jstr r.domain),
    ("score", JVal.jnum r.score), ("ts", JVal.jnum ts)]

/-- The `SELECT id FROM evaluations WHERE from_entity_id = $1 AND
to_entity_id = $2 AND realm_id = $3 AND domain = $4` lookup
(trust.routes.ts line 25). -/
def findEvaluation (db : TrustDb) (r : EvalReq) : Option EvalRow :=
  db.evaluations.find? (fun e =>
    e.fromEntityId == r.fromEntity && e.toEntityId == r.toEntity &&
    e.realmId == r.realmId && e.domain == r.domain)

/-- Embeds the `POST /trust/evaluations` handler (trust.routes.ts lines
11-42).  Returns the new database state, the HTTP status, and the
`updated` flag.  The update branch (lines 26-31) returns before the audit
call and the cache `DELETE` (lines 38-39), which only the insert branch
reaches. -/
def postEvaluation (db : TrustDb) (r : EvalReq) (ts : Int) (tsIso : String) :
    TrustDb × Nat × Bool :=
  if r.score < 0 ∨ 100 < r.score then (db, 400, false)
  else if ¬db.realms.contains r.realmId then (db, 400, false)
  else
    let data := evalDataFields r ts
    let evalId := contentId data
    let signature := signObject data
    match findEvaluation db r with
    | some existing =>
        let db2 := { db with evaluations := db.evaluations.map (fun e =>
            if e.id == existing.id then
              { e with
                score := r.score
                weight := r.weight
                rationale := r.rationale
                supportingAttestationIds := r.supportingAttestations
                signature := signature }
            else e) }
        (db2, 200, true)
    | none =>
        let db2 := { db with evaluations := db.evaluations ++
            [({ id := evalId, fromEntityId := r.fromEntity, toEntityId := r.toEntity
                realmId := r.realmId, domain := r.domain, score := r.score
                weight := r.weight, rationale := r.rationale
                supportingAttestationIds := r.supportingAttestations
                signature := signature } : EvalRow)] }
        let db3 := { db2 with audit := (logEvent db2.audit "evaluation.created" "api"
            [evalId, r.fromEntity, r.toEntity]
            (JVal.jobj [("evaluation", JVal.jobj [("score", JVal.jnum r.score),
              ("domain", JVal.jstr r.domain), ("realmId", JVal.jstr r.realmId)])])
            tsIso).1 }
        let db4 := { db3 with reputationCache := db3.reputationCache.filter (fun c =>
            ¬(c.subjectId == r.toEntity && c.realmId == r.realmId)) }
        (db4, 201, false)

/-- C2 (amended).  For every evaluation submission with a valid realm and
in-range score: in the insert case the handler appends one
`evaluation.created` audit event and deletes the reputation-cache rows for
`(toEntity, realmId, any domain)`; in the update case (an existing
`(from, to, realmId, domain)` row) it updates the row in place and returns
without emitting any audit event and without touching the cache. -/
theorem postEvaluation_audit_cache (db : TrustDb) (r : EvalReq) (ts : Int)
    (tsIso : String) (hscore : ¬(r.score < 0 ∨ 100 < r.score))
    (hrealm : db.realms.contains r.realmId = true) :
    match findEvaluation db r with
    | some _ =>
        (postEvaluation db r ts tsIso).1.audit = db.audit ∧
        (postEvaluation db r ts tsIso).1.reputationCache = db.reputationCache
    | none =>
        (postEvaluation db r ts tsIso).1.audit.events.length
          = db.audit.events.length + 1 ∧
        ((postEvaluation db r ts tsIso).1.audit.events.getLast?).map AuditRow.eventType
          = some "evaluation.created" ∧
        (postEvaluation db r ts tsIso).1.reputationCache
          = db.reputationCache.filter (fun c =>
              ¬(c.subjectId == r.toEntity && c.realmId == r.realmId)) := by
  unfold postEvaluation
  rw [if_neg hscore, if_neg (not_not_intro hrealm)]
  rcases hf : findEvaluation db r with _ | ex
  · simp only [hf]
    refine ⟨?_, ?_, ?_⟩
    · simp [logEvent_events]
    · simp only [logEvent_events, List.getLast?_concat, Option.map]
      rfl
    · trivial
  · simp only [hf]
    constructor <;> trivial

/-- Database with an existing `(F, T, R, d)` evaluation and a cached
reputation row for `(T, R, d)`; used by the C2 counterexample. -/
def c2db : TrustDb :=
  { realms := ["R"],
    evaluations := [⟨"e0", "F", "T", "R", "d", 50, 1, none, [], "sig0"⟩],
    reputationCache := [⟨"T", "R", "d"⟩],
    audit := auditInit }

/-- Resubmission of the `(F, T, R, d)` edge with a new score. -/
def c2req : EvalReq := ⟨"F", "T", "R", "d", 90, 1, none, []⟩

/-- C2 counterexample.  Resubmitting an existing `(from, to, realmId,
domain)` evaluation (the update case, with a valid realm) updates the
row's score to 90 — a real write — yet emits no audit event (the log stays
empty) and leaves the reputation-cache row for `(T, R, d)` in place,
refuting the claim that every such write emits `evaluation.created` and
invalidates the cache. -/
theorem postEvaluation_update_counterexample :
    (postEvaluation c2db c2req 1000 "ts").1.evaluations.map EvalRow.score = [90] ∧
    (postEvaluation c2db c2req 1000 "ts").1.audit.events.length = 0 ∧
    (postEvaluation c2db c2req 1000 "ts").1.reputationCache
      = [⟨"T", "R", "d"⟩] := by
  exact ⟨by decide, by decide, by decide⟩

/-- Database without the `(F, T, R, d)` edge; used by the C2 witness
(insert case). -/
def c2dbIns : TrustDb :=
  { realms := ["R"],
    evaluations := [],
    reputationCache := [⟨"T", "R", "d"⟩, ⟨"X", "R", "other"⟩],
    audit := auditInit }

/-- Witness for C2: the amended theorem at a concrete insert-case input. -/
theorem postEvaluation_audit_cache_witness :
    (¬(c2req.score < 0 ∨ 100 < c2req.score) ∧
      c2dbIns.realms.contains c2req.realmId = true) ∧
    (match findEvaluation c2dbIns c2req with
      | some _ =>
          (postEvaluation c2dbIns c2req 1000 "ts").1.audit = c2dbIns.audit ∧
          (postEvaluation c2dbIns c2req 1000 "ts").1.reputationCache
            = c2dbIns.reputationCache
      | none =>
          (postEvaluation c2dbIns c2req 1000 "ts").1.audit.events.length
            = c2dbIns.audit.events.length + 1 ∧
          ((postEvaluation c2dbIns c2req 1000 "ts").1.audit.events.getLast?).map
              AuditRow.eventType = some "evaluation.created" ∧
          (postEvaluation c2dbIns c2req 1000 "ts").1.reputationCache
            = c2dbIns.reputationCache.filter (fun c =>
                ¬(c.subjectId == c2req.toEntity && c.realmId == c2req.realmId))) :=
  ⟨⟨by decide, by decide⟩,
    postEvaluation_audit_cache c2dbIns c2req 1000 "ts" (by decide) (by decide)⟩

/-- A stored `attestations` row, reduced to the columns the verify handler
reads or writes. -/
structure AttRow where
  id : String
  realmId : String
  subjectId : String
  resolverId : String
  status : String
  verificationCount : Nat
deriving DecidableEq

/-- A stored `verification_runs` row (columns not read downstream
elided). -/
structure RunRow where
  id : String
  attestationId : String
  resolverId : String
  status : String
deriving DecidableEq

/-- Database state touched by the verify router. -/
structure VerifyDb where
  attestations : List AttRow
  runs : List RunRow
  audit : AuditState

/-- The status mapping of verify.routes line 154:
`verified → verified, failed → failed, else → pending`. -/
def mapRunStatus (s : String) : String :=
  if s == "verified" then "verified" else if s == "failed" then "failed" else "pending"

/-- The id of the new verification run (verify.routes line 149). -/
def verifyRunId (attId : String) (ts : Int) (outputHash : String) : String :=
  contentId [("attestationId", JVal.jstr attId), ("ts", JVal.jnum ts),
    ("hash", JVal.jstr outputHash)]

/-- Embeds the `POST /verify/:attestationId` handler (trust.routes.ts
lines 128-162).  The resolver dispatch (`resolver.verify(evidence)`)
performs network calls, so the registry is modelled as a map from resolver
id to the run status its `verify` returns for the attestation's evidence;
`outputHash`, the timestamp and the measured duration are likewise
external inputs.  The handler never inspects `revoked`, `failed`,
`pending` or `expired` states: only `status === "verified"` short-circuits
(and only without `force`). -/
def postVerify (db : VerifyDb) (attId : String) (force : Bool)
    (registry : List (String × String)) (outputHash : String) (ts : Int)
    (tsIso : String) (durationMs : Int) : VerifyDb × Nat :=
  match db.attestations.find? (fun a => a.id == attId) with
  | none => (db, 404)
  | some att =>
      if ¬force ∧ att.status == "verified" then (db, 200)
      else
        match lookupStr att.resolverId registry with
        | none => (db, 400)
        | some rstatus =>
            let verId := verifyRunId attId ts outputHash
            let newStatus := mapRunStatus rstatus
            let db2 := { db with runs := db.runs ++
                [({ id := verId, attestationId := attId, resolverId := att.resolverId
                    status := rstatus } : RunRow)] }
            let db3 := { db2 with attestations := db2.attestations.map (fun a : AttRow =>
                if a.id == attId then
                  { a with
                    status := newStatus
                    verificationCount := a.verificationCount + 1 }
                else a) }
            let db4 := { db3 with audit := (logEvent db3.audit "attestation.verified"
                "api" [attId]
                (JVal.jobj [("verification", JVal.jobj
                  [("verificationId", JVal.jstr verId), ("status", JVal.jstr rstatus),
                    ("duration", JVal.jnum durationMs)])]) tsIso).1 }
            (db4, 200)

/-- C4 (amended).  `revoked` is not terminal for the verify operation: the
handler short-circuits only on `status = verified` without `force`.  For a
revoked attestation it proceeds to the resolver: with an unregistered
resolver the state is unchanged (the status incidentally stays revoked,
with a 400 error); with a registered resolver the status becomes the run
mapping `verified → verified, failed → failed, error → pending` — so a
resolver run moves a revoked attestation out of `revoked`, with or without
`force`. -/
theorem postVerify_revoked (db : VerifyDb) (attId : String) (force : Bool)
    (registry : List (String × String)) (outputHash : String) (ts : Int)
    (tsIso : String) (dur : Int) (att : AttRow)
    (hfind : db.attestations.find? (fun a => a.id == attId) = some att)
    (hrev : att.status = "revoked") :
    match lookupStr att.resolverId registry with
    | none => (postVerify db attId force registry outputHash ts tsIso dur).1 = db
    | some rstatus =>
        (postVerify db attId force registry outputHash ts tsIso dur).1.attestations
          = db.attestations.map (fun a : AttRow =>
              if a.id == attId then
                { a with
                  status := mapRunStatus rstatus
                  verificationCount := a.verificationCount + 1 }
              else a) := by
  unfold postVerify
  simp only [hfind]
  rw [if_neg (by simp [hrev])]
  rcases hl : lookupStr att.resolverId registry with _ | rstatus <;> simp only [hl]

/-- Database with a single revoked attestation; used by the C4
counterexample and witness. -/
def c4db : VerifyDb :=
  { attestations := [⟨"att1", "R", "S", "res1", "revoked", 0⟩],
    runs := [],
    audit := auditInit }

/-- Registry in which resolver `res1` reports `verified`. -/
def c4reg : List (String × String) := [("res1", "verified")]

/-- C4 counterexample.  Verifying a revoked attestation whose resolver run
reports `verified` sets its status to `verified` — both without and with
`force` — so verify does not leave a revoked attestation revoked. -/
theorem postVerify_revoked_counterexample :
    (postVerify c4db "att1" false c4reg "oh" 5 "ts" 3).1.attestations.map AttRow.status
      = ["verified"] ∧
    (postVerify c4db "att1" true c4reg "oh" 5 "ts" 3).1.attestations.map AttRow.status
      = ["verified"] := by
  exact ⟨by decide, by decide⟩

/-- Registry without `res1`; used by the C4 witness (unchanged-state
branch). -/
def c4regEmpty : List (String × String) := [("other", "failed")]

/-- Witness for C4: the amended theorem at the concrete revoked
attestation, in the registered-resolver branch. -/
theorem postVerify_revoked_witness :
    (c4db.attestations.find? (fun a => a.id == "att1")
        = some ⟨"att1", "R", "S", "res1", "revoked", 0⟩ ∧
      (⟨"att1", "R", "S", "res1", "revoked", 0⟩ : AttRow).status = "revoked") ∧
    (match lookupStr (⟨"att1", "R", "S", "res1", "revoked", 0⟩ : AttRow).resolverId c4reg with
      | none => (postVerify c4db "att1" false c4reg "oh" 5 "ts" 3).1 = c4db
      | some rstatus =>
          (postVerify c4db "att1" false c4reg "oh" 5 "ts" 3).1.attestations
            = c4db.attestations.map (fun a : AttRow =>
                if a.id == "att1" then
                  { a with
                    status := mapRunStatus rstatus
                    verificationCount := a.verificationCount + 1 }
                else a)) :=
  ⟨⟨by decide, by decide⟩,
    postVerify_revoked c4db "att1" false c4reg "oh" 5 "ts" 3
      ⟨"att1", "R", "S", "res1", "revoked", 0⟩ (by decide) (by decide)⟩

/-- A `TrustEdge` as built by `TrustGraph.addEdge`
(src/unnamed/part_001 lines 12-21): the evaluation's score divided by 100,
its weight kept.  Numbers are exact rationals, the idealized semantics of
the JavaScript floats. -/
structure TrustEdge where
  fromEntity : String
  toEntity : String
  domain : String
  realmId : String
  score : Rat
  weight : Rat
deriving DecidableEq

/-- Embeds `TrustGraph.loadFromEvaluations` plus `addEdge`: the edge list
in insertion order. -/
def loadFromEvaluations (evals : List EvalRow) : List TrustEdge :=
  evals.map (fun e =>
    ⟨e.fromEntityId, e.toEntityId, e.domain, e.realmId, (e.score : Rat) / 100, e.weight⟩)

/-- The adjacency lookup `this.adjacency.get(`from:domain`)`: the per-key
lists hold edges in insertion order, which equals filtering the global
insertion-ordered edge list. -/
def edgesFor (edges : List TrustEdge) (fromE domain : String) : List TrustEdge :=
  edges.filter (fun e => e.fromEntity == fromE && e.domain == domain)

/-- Embeds `TrustGraph.getDirectTrust` (part_001 lines 27-33). -/
def getDirectTrust (edges : List TrustEdge) (fromE toE domain : String) : Option Rat :=
  let es := (edgesFor edges fromE domain).filter (fun e => e.toEntity == toE)
  if es.isEmpty then none
  else
    let sum := es.foldl (fun s e => s + e.score * e.weight) 0
    let weight := es.foldl (fun s e => s + e.weight) 0
    if 0 < weight then some (sum / weight) else none

/-- A `TrustPath` result record. -/
structure TrustPath where
  path : List String
  scores : List Rat
  finalTrust : Rat
  decayApplied : Rat
deriving DecidableEq

/-- A BFS queue entry (part_001 line 47). -/
structure Frontier where
  node : String
  path : List String
  scores : List Rat
  trust : Rat
  depth : Nat
deriving DecidableEq

/-- The result of `computeTransitiveTrust`, minus the wall-clock
`computationTimeMs` and the echoed query parameters. -/
structure TransitiveResult where
  score : Rat
  confidence : Rat
  paths : List TrustPath
  bestPath : TrustPath
  pathsExplored : Nat
deriving DecidableEq

/-- The BFS loop of `computeTransitiveTrust` (part_001 lines 56-78).  The
`while (queue.length > 0 && explored < 5000)` condition is embedded as a
fuel counter `5000 - explored`, decremented exactly once per iteration
like `explored++`.  The visited key \x22node:depth\x22 is modelled as the
pair. -/
def bfsLoop (edges : List TrustEdge) (toE domain : String) (maxDepth : Nat)
    (decayFactor minConfidence : Rat) :
    Nat → List Frontier → List (String × Nat) → Nat → List TrustPath →
    List TrustPath × Nat
  | 0, _, _, explored, acc => (acc, explored)
  | _ + 1, [], _, explored, acc => (acc, explored)
  | fuel + 1, cur :: queue, visited, explored, acc =>
      if (cur.node, cur.depth) ∈ visited then
        bfsLoop edges toE domain maxDepth decayFactor minConfidence
          fuel queue visited (explored + 1) acc
      else
        let visited2 := (cur.node, cur.depth) :: visited
        if cur.node == toE then
          bfsLoop edges toE domain maxDepth decayFactor minConfidence
            fuel queue visited2 (explored + 1)
            (acc ++ [⟨cur.path, cur.scores, cur.trust * decayFactor ^ (cur.depth - 1),
              1 - decayFactor ^ (cur.depth - 1)⟩])
        else if maxDepth ≤ cur.depth then
          bfsLoop edges toE domain maxDepth decayFactor minConfidence
            fuel queue visited2 (explored + 1) acc
        else if cur.trust * decayFactor ^ cur.depth < minConfidence then
          bfsLoop edges toE domain maxDepth decayFactor minConfidence
            fuel queue visited2 (explored + 1) acc
        else
          let new := (edgesFor edges cur.node domain).filterMap (fun e =>
            if e.toEntity ∈ cur.path then none
            else some (⟨e.toEntity, cur.path ++ [e.toEntity], cur.scores ++ [e.score],
              cur.trust * e.score * decayFactor, cur.depth + 1⟩ : Frontier))
          bfsLoop edges toE domain maxDepth decayFactor minConfidence
            fuel (queue ++ new) visited2 (explored + 1) acc

/-- The descending stable sort `allPaths.sort((a, b) => b.finalTrust -
a.finalTrust)` (part_001 line 86). -/
def sortPathsDesc (ps : List TrustPath) : List TrustPath :=
  ps.insertionSort (fun a b => b.finalTrust ≤ a.finalTrust)

/-- The secondary-path dampening sum of part_001 line 88: indices
`1 ≤ i < min(length, 5)`, weight `0.5^i`. -/
def aggExtra : List TrustPath → Nat → Rat
  | [], _ => 0
  | p :: rest, i => if i < 5 then p.finalTrust * (1 / 2 : Rat) ^ i + aggExtra rest (i + 1) else 0

/-- Embeds `TrustGraph.computeTransitiveTrust` (part_001 lines 35-94). -/
def computeTransitiveTrust (edges : List TrustEdge) (fromE toE domain : String)
    (maxDepth : Nat) (decayFactor minConfidence : Rat) : TransitiveResult :=
  match getDirectTrust edges fromE toE domain with
  | some direct =>
      let p : TrustPath := ⟨[fromE, toE], [direct], direct, 0⟩
      ⟨direct, 1, [p], p, 1⟩
  | none =>
      let seed := (edgesFor edges fromE domain).map (fun e =>
        (⟨e.toEntity, [fromE, e.toEntity], [e.score], e.score, 1⟩ : Frontier))
      let res := bfsLoop edges toE domain maxDepth decayFactor minConfidence 5000 seed [] 0 []
      if res.1.isEmpty then
        ⟨0, 0, [], ⟨[], [], 0, 0⟩, res.2⟩
      else
        let sorted := sortPathsDesc res.1
        let best := sorted.headD ⟨[], [], 0, 0⟩
        ⟨min (best.finalTrust + aggExtra (sorted.drop 1) 1) 1,
          min 1 ((res.1.length : Rat) / 3), sorted.take 10, best, res.2⟩

/-- The two-edge graph A→B = 100, B→C = 100 in domain `d`, weights 1. -/
def c6evals : List EvalRow :=
  [⟨"eAB", "A", "B", "R", "d", 100, 1, none, [], "s1"⟩,
    ⟨"eBC", "B", "C", "R", "d", 100, 1, none, [], "s2"⟩]

/-- C6.  On the graph A→B = 100, B→C = 100 (domain `d`, weights 1), the
transitive query from A to C with `decayFactor = 0.8` finds exactly one
path `[A, B, C]` with `finalTrust = 1·1·0.8·0.8^(2-1) = 0.64`
(`decayApplied = 0.2`), aggregated score `0.64`, and confidence
`min(1, 1/3)`; two frontier entries are explored. -/
theorem transitive_two_hop :
    computeTransitiveTrust (loadFromEvaluations c6evals) "A" "C" "d" 5 (4 / 5) (1 / 10)
      = ⟨16 / 25, min 1 (1 / 3),
          [⟨["A", "B", "C"], [1, 1], 16 / 25, 1 / 5⟩],
          ⟨["A", "B", "C"], [1, 1], 16 / 25, 1 / 5⟩, 2⟩ := by
  norm_num [computeTransitiveTrust, getDirectTrust, edgesFor, loadFromEvaluations,
    c6evals, bfsLoop, sortPathsDesc, aggExtra, List.filter_cons, List.filter_nil,
    List.filterMap_cons, List.filterMap_nil, List.insertionSort, List.orderedInsert]
  simp only [String.reduceEq, reduceIte, List.filter_cons, List.filter_nil,
    List.filterMap_cons, List.filterMap_nil, beq_iff_eq]
  norm_num

/-- An evaluation as consumed by `computeReputationWithDecay` (only the
fields the function reads).  Dates are epoch milliseconds
(`Date.getTime()`); numbers are reals, the idealized float semantics
(`Math.pow` takes a fractional exponent here, so the rationals do not
suffice). -/
structure RepEval where
  score : Real
  weight : Real
  createdAt : Real

/-- JavaScript `Math.round`: round half toward positive infinity. -/
noncomputable def jsRound (x : Real) : Real := ((⌊x + 1 / 2⌋ : Int) : Real)

/-- `Math.round(x * 10) / 10` (one decimal). -/
noncomputable def round1 (x : Real) : Real := jsRound (x * 10) / 10

/-- `Math.round(x * 100) / 100` (two decimals). -/
noncomputable def round2 (x : Real) : Real := jsRound (x * 100) / 100

/-- Result record of `computeReputationWithDecay`. -/
structure RepResult where
  score : Real
  confidence : Real
  rawScore : Real
  attestationBonus : Real
  decayPenalty : Real

/-- Embeds `computeReputationWithDecay` (src/unnamed/part_001 lines
97-118). -/
noncomputable def computeReputationWithDecay (now : Real) (evals : List RepEval)
    (attestationCount verifiedAttestationCount : Nat) (newest : Real)
    (halfLifeDays minScore maxScore : Real) : RepResult :=
  let msPerDay : Real := 1000 * 60 * 60 * 24
  let acc := evals.foldl (fun (p : Real × Real) e =>
      let ageDays := (now - e.createdAt) / msPerDay
      let w := e.weight * (1 / 2 : Real) ^ (ageDays / halfLifeDays)
      (p.1 + e.score * w, p.2 + w)) (0, 0)
  let raw := if 0 < acc.2 then acc.1 / acc.2 else 50
  let bonus := if 0 < verifiedAttestationCount then
      ((verifiedAttestationCount : Real) / (attestationCount : Real)) * 10 *
        min ((verifiedAttestationCount : Real) / 5) 1
    else 0
  let staleDays := (now - newest) / msPerDay
  let penalty := max 0 ((staleDays - halfLifeDays) * (1 / 10))
  let score := max minScore (min maxScore (raw + bonus - penalty))
  let confidence := min 1 ((evals.length : Real) / 10) *
    (1 / 2 : Real) ^ (staleDays / halfLifeDays)
  ⟨round1 score, round2 confidence, round1 raw, round1 bonus, round1 penalty⟩

theorem jsRound_mono {x y : Real} (h : x ≤ y) : jsRound x ≤ jsRound y := by
  unfold jsRound
  exact_mod_cast Int.floor_mono (by linarith)

theorem round2_mono {x y : Real} (h : x ≤ y) : round2 x ≤ round2 y := by
  unfold round2
  have h2 : x * 100 ≤ y * 100 := by nlinarith
  have := jsRound_mono h2
  linarith

/-- C8.  With a fixed evaluation list, fixed attestation counts and a
fixed positive half-life, the confidence returned by
`computeReputationWithDecay` is non-increasing as `stalenessDays`
increases: an older `newestEvaluationDate` (hence a larger staleness)
never yields a larger confidence. -/
theorem confidence_antitone_in_staleness (now : Real) (evals : List RepEval)
    (attC verC : Nat) (newest₁ newest₂ : Real) (halfLife minS maxS : Real)
    (hhl : 0 < halfLife) (hle : newest₂ ≤ newest₁) :
    (computeReputationWithDecay now evals attC verC newest₂ halfLife minS maxS).confidence
      ≤ (computeReputationWithDecay now evals attC verC newest₁ halfLife minS maxS).confidence := by
  show round2 (min 1 ((evals.length : Real) / 10) *
      (1 / 2 : Real) ^ (((now - newest₂) / (1000 * 60 * 60 * 24)) / halfLife))
    ≤ round2 (min 1 ((evals.length : Real) / 10) *
      (1 / 2 : Real) ^ (((now - newest₁) / (1000 * 60 * 60 * 24)) / halfLife))
  apply round2_mono
  apply mul_le_mul_of_nonneg_left
  · apply Real.rpow_le_rpow_of_exponent_ge (by norm_num) (by norm_num)
    have h1 : now - newest₁ ≤ now - newest₂ := by linarith
    gcongr
  · exact le_min (by norm_num) (by positivity)

/-- Witness for C8: the monotonicity theorem at a concrete input (one
evaluation, half-life one day, staleness 0 versus 1 day). -/
theorem confidence_antitone_in_staleness_witness :
    ((0 : Real) < 1 ∧ (-86400000 : Real) ≤ 0) ∧
    (computeReputationWithDecay 0 [⟨80, 1, 0⟩] 0 0 (-86400000) 1 0 100).confidence
      ≤ (computeReputationWithDecay 0 [⟨80, 1, 0⟩] 0 0 0 1 0 100).confidence :=
  ⟨⟨by norm_num, by norm_num⟩,
    confidence_antitone_in_staleness 0 [⟨80, 1, 0⟩] 0 0 0 (-86400000) 1 0 100
      (by norm_num) (by norm_num)⟩

/-- A stored `proofs` row, reduced to the columns the evidence-proof
handler reads (`subject_id, realm_id, domain, evidence_merkle_root`) plus
the primary key. -/
structure ProofRow where
  id : String
  subjectId : String
  realmId : String
  domain : String
  evidenceMerkleRoot : String
deriving DecidableEq

/-- Database state touched by the proofs router. -/
structure ProofsDb where
  attestations : List AttRow
  evaluations : List EvalRow
  reputationCache : List CacheRow
  proofs : List ProofRow
  audit : AuditState

/-- Embeds the evidence-collection and commitment part of
`POST /proofs/generate` (src/unnamed/part_002 lines 30-163).  The two
evidence queries (lines 63-76) carry no `ORDER BY`, so they return rows in
storage order — modelled as insertion order; signing and the reputation
payload do not affect the stored `evidence_merkle_root` and are elided. -/
def generateProof (db : ProofsDb) (subject realmId domain : String)
    (issuedAtIso tsIso : String) : ProofsDb × Option String :=
  match db.reputationCache.find? (fun c =>
      c.subjectId == subject && c.realmId == realmId && c.domain == domain) with
  | none => (db, none)
  | some _ =>
      let attestationIds := (db.attestations.filter (fun a =>
          a.subjectId == subject && a.realmId == realmId && a.status == "verified")).map
        AttRow.id
      let evaluationIds := (db.evaluations.filter (fun e =>
          e.toEntityId == subject && e.realmId == realmId && e.domain == domain)).map
        EvalRow.id
      let evidenceLeaves := attestationIds ++ evaluationIds
      let root := if evidenceLeaves.isEmpty then "empty" else getMerkleRoot evidenceLeaves
      let proofId := contentId [("subject", JVal.jstr subject),
        ("realmId", JVal.jstr realmId), ("domain", JVal.jstr domain),
        ("issuedAt", JVal.jstr issuedAtIso)]
      let db2 := { db with proofs := db.proofs ++
          [({ id := proofId, subjectId := subject, realmId := realmId, domain := domain
              evidenceMerkleRoot := root } : ProofRow)] }
      let db3 := { db2 with audit := (logEvent db2.audit "proof.generated" "api"
          [proofId, subject, realmId]
          (JVal.jobj [("proofId", JVal.jstr proofId), ("subject", JVal.jstr subject),
            ("realm", JVal.jstr realmId)]) tsIso).1 }
      (db3, some proofId)

/-- Embeds `POST /proofs/evidence-proof` (part_002 lines 288-366): reload
the evidence id lists `ORDER BY id` (ascending text order, modelled by
`sortStrings`), locate the leaf, generate the Merkle proof, and compare
its root with the stored `evidence_merkle_root` (the handler's `valid`
flag).  Returns `none` on the 404 paths. -/
def evidenceProof (db : ProofsDb) (proofId evidenceId : String) :
    Option (MerkleProof × Bool) :=
  match db.proofs.find? (fun p => p.id == proofId) with
  | none => none
  | some proof =>
      let attestationIds := sortStrings ((db.attestations.filter (fun a =>
          a.subjectId == proof.subjectId && a.realmId == proof.realmId &&
          a.status == "verified")).map AttRow.id)
      let evaluationIds := sortStrings ((db.evaluations.filter (fun e =>
          e.toEntityId == proof.subjectId && e.realmId == proof.realmId &&
          e.domain == proof.domain)).map EvalRow.id)
      let evidenceLeaves := attestationIds ++ evaluationIds
      match evidenceLeaves.findIdx? (fun l => l == evidenceId) with
      | none => none
      | some leafIndex =>
          match generateMerkleProof evidenceLeaves (leafIndex : Int) with
          | none => none
          | some mp => some (mp, mp.root == proof.evidenceMerkleRoot)

/-- Database whose two verified attestations for `(S, R)` were inserted in
the order `b`, then `a` (storage order not id-ascending), with a cached
reputation so proof generation succeeds. -/
def c3db : ProofsDb :=
  { attestations := [⟨"b", "R", "S", "res", "verified", 1⟩,
      ⟨"a", "R", "S", "res", "verified", 1⟩],
    evaluations := [],
    reputationCache := [⟨"S", "R", "d"⟩],
    proofs := [],
    audit := auditInit }

/-- The content-addressed id of the proof generated from `c3db`. -/
def c3proofId : String :=
  contentId [("subject", JVal.jstr "S"), ("realmId", JVal.jstr "R"),
    ("domain", JVal.jstr "d"), ("issuedAt", JVal.jstr "iso1")]

/-- C3 (code bug).  Proof generation commits to the evidence leaves in
storage order (no `ORDER BY`), here `["b", "a"]`, while the
evidence-inclusion handler rebuilds the list `ORDER BY id` as
`["a", "b"]`.  For the evidence id `"a"` — a member of the proof's
evidence set — the returned Merkle proof's root is the root of the sorted
list, the handler's `valid` flag is `false`, and the stored
`evidenceMerkleRoot` (root of the unsorted list) differs from the rebuilt
root, contradicting the claimed root equality. -/
theorem evidenceProof_root_mismatch :
    ((evidenceProof (generateProof c3db "S" "R" "d" "iso1" "ts1").1 c3proofId "a").map
        (fun pr => (pr.2, pr.1.root == getMerkleRoot ["a", "b"]))) = some (false, true) ∧
    ((generateProof c3db "S" "R" "d" "iso1" "ts1").1.proofs.map ProofRow.evidenceMerkleRoot)
      = [getMerkleRoot ["b", "a"]] ∧
    getMerkleRoot ["b", "a"] ≠ getMerkleRoot ["a", "b"] := by
  exact ⟨by decide, by decide, by decide⟩
